import Mathlib

/-!
Shallow embedding of the referral-crediting core of `src/main.py`
(aiogram + asyncpg Telegram referral bot).

The persistent PostgreSQL store (tables `users`, `referrals`, `pending_refs`
from `INIT_SQL`) is modelled as lists of rows.  The `TIMESTAMPTZ DEFAULT NOW()`
columns (`joined_at`, `created_at`) and the `BIGSERIAL id` of `referrals`
carry no information used by any property below and are omitted from the
row types; every other column is modelled.  `DOUBLE PRECISION` balances are
modelled as rationals, `BIGINT` ids as `Int`, `INTEGER referrals_count` as
`Nat` (it starts at the `DEFAULT 0` and is only ever incremented).

External collaborators (the Telegram API) are modelled as explicit
parameters: the membership query `bot.get_chat_member` becomes a function
returning `Option ChatMemberStatus` (`none` = the call raised), and the
configured `SUB_CHANNELS` / `BONUS_PER_REF` environment values become
ordinary arguments.
-/

set_option autoImplicit false

namespace UbmBot

/-- A row of the `users` table: `user_id BIGINT PRIMARY KEY, username TEXT,
ref_by BIGINT, balance DOUBLE PRECISION DEFAULT 0,
referrals_count INTEGER DEFAULT 0`. -/
structure UserRow where
  user_id : Int
  username : Option String
  ref_by : Option Int
  balance : ℚ
  referrals_count : Nat
  deriving Repr, DecidableEq

/-- A row of the `referrals` table: `referrer_id BIGINT NOT NULL,
referred_id BIGINT NOT NULL UNIQUE`. -/
structure RefEvent where
  referrer_id : Int
  referred_id : Int
  deriving Repr, DecidableEq

/-- The whole persistent store.  `pending` holds `pending_refs` rows as
`(referred_id, referrer_id)` pairs (`referred_id BIGINT PRIMARY KEY`). -/
structure Store where
  users : List UserRow
  referrals : List RefEvent
  pending : List (Int × Int)
  deriving Repr, DecidableEq

/-- The empty store, as produced by `init_db` on a fresh database. -/
def Store.empty : Store := ⟨[], [], []⟩

/-- `SELECT ... FROM users WHERE user_id=$1` (primary-key lookup). -/
def findUser (s : Store) (uid : Int) : List UserRow :=
  s.users.filter (fun u => u.user_id == uid)

/-- First (by PRIMARY KEY: only) row with the given id. -/
def getUserRow (s : Store) (uid : Int) : Option UserRow :=
  s.users.find? (fun u => u.user_id == uid)

/-- `INSERT INTO users(user_id) VALUES ($1) ON CONFLICT (user_id) DO NOTHING`
from `apply_referral`: a fresh row gets the column defaults
(`username, ref_by` NULL, `balance` 0, `referrals_count` 0). -/
def insertUserIfAbsent (s : Store) (uid : Int) : Store :=
  if s.users.any (fun u => u.user_id == uid) then s
  else { s with users := s.users ++ [⟨uid, none, none, 0, 0⟩] }

/-- `INSERT INTO users(user_id, username) VALUES ($1,$2)
ON CONFLICT (user_id) DO UPDATE SET username=EXCLUDED.username`
(the upsert in `ensure_user` and `cmd_me`): only `username` is touched on an
existing row. -/
def upsertUsername (s : Store) (uid : Int) (uname : Option String) : Store :=
  if s.users.any (fun u => u.user_id == uid) then
    { s with users := (s.users.map
        (fun u => if u.user_id == uid then { u with username := uname } else u)) }
  else { s with users := s.users ++ [⟨uid, uname, none, 0, 0⟩] }

/-- Store effect of `ensure_user` (the `is_new` heuristic it also returns is
pure wall-clock glue and has no store effect). -/
def ensure_user (s : Store) (uid : Int) (uname : Option String) : Store :=
  upsertUsername s uid uname

/-- Does the `referrals` table already hold a row for this `referred_id`
(the `UNIQUE` constraint that `INSERT INTO referrals` can violate)? -/
def hasRefEvent (s : Store) (rid : Int) : Bool :=
  s.referrals.any (fun e => e.referred_id == rid)

/-- `UPDATE users SET ref_by = COALESCE(ref_by, $1) WHERE user_id = $2`:
sets `ref_by` on the referred user's row only if it is still NULL; affects
no row when the referred user has no row yet. -/
def setRefByCoalesce (users : List UserRow) (referrer referred : Int) :
    List UserRow :=
  users.map (fun u =>
    if u.user_id == referred then
      { u with ref_by := some (u.ref_by.getD referrer) }
    else u)

/-- `UPDATE users SET referrals_count = referrals_count + 1,
balance = balance + $1 WHERE user_id = $2` on the referrer's row. -/
def creditReferrer (users : List UserRow) (referrer : Int) (bonus : ℚ) :
    List UserRow :=
  users.map (fun u =>
    if u.user_id == referrer then
      { u with referrals_count := u.referrals_count + 1,
               balance := u.balance + bonus }
    else u)

/-- `apply_referral(referrer_id, referred_id) -> bool` of `src/main.py`.

The Python body runs inside `async with conn.transaction()`.  When the
`INSERT INTO referrals` hits the `UNIQUE (referred_id)` constraint,
`asyncpg.UniqueViolationError` is caught and the function returns `False`;
PostgreSQL has already put the transaction into the aborted state, so the
COMMIT issued by the context manager on that normal exit acts as a
ROLLBACK: the earlier `INSERT INTO users ... DO NOTHING` for the referrer
is undone as well and the committed effect of the duplicate path is *no
change at all*.  The embedding therefore tests the uniqueness constraint
first and returns the original store on the duplicate path; the success
path performs, in the source's order, the referrer upsert, the event
insert, the `ref_by` COALESCE update and the credit update. -/
def apply_referral (bonus : ℚ) (s : Store) (referrer_id referred_id : Int) :
    Bool × Store :=
  if referrer_id = referred_id then (false, s)
  else if hasRefEvent s referred_id then (false, s)
  else
    let s1 := insertUserIfAbsent s referrer_id
    let s2 := { s1 with referrals := s1.referrals ++ [RefEvent.mk referrer_id referred_id] }
    let s3 := { s2 with users := setRefByCoalesce s2.users referrer_id referred_id }
    let s4 := { s3 with users := creditReferrer s3.users referrer_id bonus }
    (true, s4)

/-- Balance of a user as read back by `SELECT`; an absent row reads as the
column default 0 (used to state balance deltas uniformly). -/
def balanceOf (s : Store) (uid : Int) : ℚ :=
  (getUserRow s uid).elim 0 (·.balance)

/-- `referrals_count` of a user; absent row reads as the default 0. -/
def refCountOf (s : Store) (uid : Int) : Nat :=
  (getUserRow s uid).elim 0 (·.referrals_count)

/-- `ref_by` of a user; absent row reads as NULL. -/
def refByOf (s : Store) (uid : Int) : Option Int :=
  (getUserRow s uid).bind (·.ref_by)

/-- `add_pending_ref(referred_id, referrer_id)`:
`INSERT INTO pending_refs ... ON CONFLICT (referred_id) DO UPDATE SET
referrer_id=EXCLUDED.referrer_id` — a per-referred-id upsert. -/
def add_pending_ref (s : Store) (referred_id referrer_id : Int) : Store :=
  if s.pending.any (fun p => p.1 == referred_id) then
    { s with pending := (s.pending.map
        (fun p => if p.1 == referred_id then (p.1, referrer_id) else p)) }
  else { s with pending := s.pending ++ [(referred_id, referrer_id)] }

/-- `SELECT referrer_id FROM pending_refs WHERE referred_id=$1`. -/
def pendingLookup (s : Store) (referred_id : Int) : Option Int :=
  (s.pending.find? (fun p => p.1 == referred_id)).map (·.2)

/-- `pop_pending_ref(referred_id)`: SELECT the row; if absent return NULL,
else DELETE it (`DELETE ... WHERE referred_id=$1`) and return its
`referrer_id`. -/
def pop_pending_ref (s : Store) (referred_id : Int) : Option Int × Store :=
  match s.pending.find? (fun p => p.1 == referred_id) with
  | none => (none, s)
  | some p =>
    (some p.2,
     { s with pending := s.pending.filter (fun q => !(q.1 == referred_id)) })

/-- Row count of `referrals` (`SELECT COUNT(*) FROM referrals` in
`get_stats`). -/
def totalRefEvents (s : Store) : Nat := s.referrals.length

/-- `SELECT COALESCE(SUM(referrals_count),0) FROM users` in `get_stats`. -/
def totalRefsBySum (s : Store) : Nat :=
  (s.users.map (·.referrals_count)).sum

/-- Store consistency: user ids are unique (`user_id` is the PRIMARY KEY of
`users`) and the ledger row count equals the sum of the per-user
counters. -/
def StoreInv (s : Store) : Prop :=
  (s.users.map (·.user_id)).Nodup ∧ totalRefEvents s = totalRefsBySum s

/-- Closed enumeration of the `status` strings the Telegram API can report
for a chat member; `creator` is the Bot API status of the chat owner. -/
inductive ChatMemberStatus where
  | member
  | administrator
  | creator
  | restricted
  | left
  | kicked
  deriving Repr, DecidableEq

/-- A configured channel reference (`SUB_CHANNELS` entry after
`_to_chat_id`): either a numeric chat id or an `@handle` string. -/
inductive ChatRef where
  | id (n : Int)
  | handle (h : String)
  deriving Repr, DecidableEq

/-- The external membership authority: `bot.get_chat_member(chat, user)`.
`none` models any raised exception (network failure, bad chat, bot not in
the chat, or a reply object without a `status` attribute). -/
def MembershipQuery : Type := ChatRef → Int → Option ChatMemberStatus

/-- `is_member_of(bot, chat_id, user_id)`: `False` on any exception; else
`status in ("member", "administrator", "creator")`. -/
def is_member_of (query : MembershipQuery) (ch : ChatRef) (uid : Int) : Bool :=
  match query ch uid with
  | none => false
  | some st =>
    st == ChatMemberStatus.member || st == ChatMemberStatus.administrator
      || st == ChatMemberStatus.creator

/-- `is_subscribed_everywhere(bot, user_id)`: `True` when `SUB_CHANNELS` is
empty; otherwise the for-loop returns `False` at the first channel whose
`is_member_of` fails and `True` after the loop. -/
def is_subscribed_everywhere (query : MembershipQuery)
    (channels : List ChatRef) (uid : Int) : Bool :=
  if channels.isEmpty then true
  else channels.all (fun ch => is_member_of query ch uid)

/-- The referral-decision core of the `on_start` handler: `ensure_user`
for the arriving user, then — when the `/start` payload parses as a digit
string (`payload : Option Int` is its parsed value) and names someone
other than the user — either `apply_referral` (gate passes) or
`add_pending_ref` (gate fails).  Returns the `ref_applied` flag and the
final store. -/
def on_start_core (bonus : ℚ) (query : MembershipQuery)
    (channels : List ChatRef) (s : Store) (uid : Int) (uname : Option String)
    (payload : Option Int) : Bool × Store :=
  let s1 := ensure_user s uid uname
  let subscribed := is_subscribed_everywhere query channels uid
  match payload with
  | none => (false, s1)
  | some referrer_id =>
    if referrer_id ≠ uid then
      if subscribed then apply_referral bonus s1 referrer_id uid
      else (false, add_pending_ref s1 uid referrer_id)
    else (false, s1)

/-- Outcome of the `/check` handler (and of the identical `check_sub`
callback and 15-second auto-check), matching its message branches. -/
inductive CheckOutcome where
  | stillBlocked
  | nothingPending
  | credited (applied : Bool)
  deriving Repr, DecidableEq

/-- The store-relevant core of `cmd_check`: gate first; on failure nothing
is touched; on success `pop_pending_ref`, and when a claim was staged,
`apply_referral` with the staged referrer. -/
def cmd_check_core (bonus : ℚ) (query : MembershipQuery)
    (channels : List ChatRef) (s : Store) (uid : Int) : CheckOutcome × Store :=
  if is_subscribed_everywhere query channels uid then
    match pop_pending_ref s uid with
    | (none, s1) => (CheckOutcome.nothingPending, s1)
    | (some referrer_id, s1) =>
      let r := apply_referral bonus s1 referrer_id uid
      (CheckOutcome.credited r.1, r.2)
  else (CheckOutcome.stillBlocked, s)

/-- One store-mutating unit of work of the bot.  `ensureUser` is the upsert
shared by `on_start`, `cmd_ref` and `cmd_me`; `applyReferral`,
`addPending` and `popPending` are the db ops; `onStart` and `cmdCheck`
are the composite handler cores (the `check_sub` callback and the
15-second auto-check run the same core as `cmdCheck`). -/
inductive Op where
  | ensureUser (uid : Int) (uname : Option String)
  | applyReferral (referrer_id referred_id : Int)
  | addPending (referred_id referrer_id : Int)
  | popPending (referred_id : Int)
  | onStart (uid : Int) (uname : Option String) (payload : Option Int)
  | cmdCheck (uid : Int)
  deriving Repr, DecidableEq

/-- Store effect of one unit of work. -/
def stepOp (bonus : ℚ) (query : MembershipQuery) (channels : List ChatRef) :
    Op → Store → Store
  | Op.ensureUser uid uname, s => ensure_user s uid uname
  | Op.applyReferral r d, s => (apply_referral bonus s r d).2
  | Op.addPending d r, s => add_pending_ref s d r
  | Op.popPending d, s => (pop_pending_ref s d).2
  | Op.onStart uid uname payload, s =>
      (on_start_core bonus query channels s uid uname payload).2
  | Op.cmdCheck uid, s => (cmd_check_core bonus query channels s uid).2

/-- Stores reachable from the fresh database by any sequence of units of
work. -/
inductive Reachable (bonus : ℚ) (query : MembershipQuery)
    (channels : List ChatRef) : Store → Prop where
  | empty : Reachable bonus query channels Store.empty
  | step {s : Store} (op : Op) :
      Reachable bonus query channels s →
      Reachable bonus query channels (stepOp bonus query channels op s)

/-- `n` sequential `apply_referral bonus · r d` calls; since each call is a
single atomic PostgreSQL transaction, an arbitrary interleaving of `n`
concurrent calls with the same arguments is exactly some serial order of
them, i.e. this iteration. -/
def applyN (bonus : ℚ) (r d : Int) : Nat → Store → List Bool × Store
  | 0, s => ([], s)
  | n + 1, s =>
    let p := apply_referral bonus s r d
    let q := applyN bonus r d n p.2
    (p.1 :: q.1, q.2)

/-! ## Helper lemmas -/

/-- `find?` by key commutes with mapping a key-preserving update over the
rows. -/
theorem find?_map_of_key {α : Type} (key : α → Int) (g : α → α)
    (hg : ∀ a, key (g a) = key a) (r : Int) (l : List α) :
    (l.map g).find? (fun a => key a == r) =
      (l.find? (fun a => key a == r)).map g := by
  rw [List.find?_map]
  have hp : ((fun a => key a == r) ∘ g) = (fun a => key a == r) := by
    funext a
    simp [Function.comp, hg]
  rw [hp]

theorem insertUserIfAbsent_referrals (s : Store) (uid : Int) :
    (insertUserIfAbsent s uid).referrals = s.referrals := by
  unfold insertUserIfAbsent
  split <;> rfl

theorem insertUserIfAbsent_pending (s : Store) (uid : Int) :
    (insertUserIfAbsent s uid).pending = s.pending := by
  unfold insertUserIfAbsent
  split <;> rfl

/-- Self-referral branch of `apply_referral`: `False`, nothing touched. -/
theorem apply_referral_self_eq (bonus : ℚ) (s : Store) (x : Int) :
    apply_referral bonus s x x = (false, s) := by
  simp [apply_referral]

/-- Duplicate branch of `apply_referral`: the aborted transaction commits
nothing, the store is returned unchanged. -/
theorem apply_referral_dup (bonus : ℚ) (s : Store) (r d : Int)
    (h : hasRefEvent s d = true) :
    apply_referral bonus s r d = (false, s) := by
  unfold apply_referral
  split
  · rfl
  · simp [h]

/-- Success branch of `apply_referral`, written out. -/
theorem apply_referral_success_eq (bonus : ℚ) (s : Store) (r d : Int)
    (h1 : ¬r = d) (h2 : hasRefEvent s d = false) :
    apply_referral bonus s r d =
      (true,
       { users := creditReferrer
           (setRefByCoalesce (insertUserIfAbsent s r).users r d) r bonus,
         referrals := s.referrals ++ [RefEvent.mk r d],
         pending := s.pending }) := by
  unfold apply_referral
  rw [if_neg h1, if_neg (by simp [h2])]
  simp [insertUserIfAbsent_referrals, insertUserIfAbsent_pending]

theorem hasRefEvent_after_success (bonus : ℚ) (s : Store) (r d : Int)
    (h1 : ¬r = d) (h2 : hasRefEvent s d = false) :
    hasRefEvent (apply_referral bonus s r d).2 d = true := by
  rw [apply_referral_success_eq bonus s r d h1 h2]
  simp [hasRefEvent]

theorem getUserRow_some_id (s : Store) (uid : Int) (u : UserRow)
    (h : getUserRow s uid = some u) : u.user_id = uid := by
  have hp := List.find?_some h
  simpa using hp

/-- After the referrer upsert, the referrer's row is its old row or a fresh
default row. -/
theorem getUserRow_insertUserIfAbsent (s : Store) (uid : Int) :
    getUserRow (insertUserIfAbsent s uid) uid =
      some ((getUserRow s uid).getD ⟨uid, none, none, 0, 0⟩) := by
  unfold insertUserIfAbsent getUserRow
  cases hany : s.users.any (fun u => u.user_id == uid) with
  | true =>
    have h1 : (s.users.find? (fun u => u.user_id == uid)).isSome := by
      rw [List.find?_isSome]
      rcases List.any_eq_true.mp hany with ⟨x, hx, hpx⟩
      exact ⟨x, hx, hpx⟩
    rcases Option.isSome_iff_exists.mp h1 with ⟨v, hv⟩
    simp [hany, hv]
  | false =>
    have hnone : s.users.find? (fun u => u.user_id == uid) = none := by
      rw [List.find?_eq_none]
      intro x hx
      simpa using List.any_eq_false.mp hany x hx
    simp [hany, hnone, List.find?_append]

/-- The referrer's row after a successful `apply_referral`: the old (or
default-initialised) row with `referrals_count` bumped and `balance`
increased by the bonus. -/
theorem getUserRow_after_success (bonus : ℚ) (s : Store) (r d : Int)
    (h1 : ¬r = d) (h2 : hasRefEvent s d = false) :
    getUserRow (apply_referral bonus s r d).2 r =
      some { (getUserRow s r).getD ⟨r, none, none, 0, 0⟩ with
             balance :=
               ((getUserRow s r).getD ⟨r, none, none, 0, 0⟩).balance + bonus,
             referrals_count :=
               ((getUserRow s r).getD ⟨r, none, none, 0, 0⟩).referrals_count
                 + 1 } := by
  rw [apply_referral_success_eq bonus s r d h1 h2]
  have hid : ((getUserRow s r).getD ⟨r, none, none, 0, 0⟩).user_id = r := by
    cases hg : getUserRow s r with
    | none => simp [hg]
    | some v =>
      have := getUserRow_some_id s r v hg
      simp [hg, this]
  have hfind1 : ((insertUserIfAbsent s r).users).find?
      (fun u => u.user_id == r) =
      some ((getUserRow s r).getD ⟨r, none, none, 0, 0⟩) :=
    getUserRow_insertUserIfAbsent s r
  have hfind2 : (setRefByCoalesce (insertUserIfAbsent s r).users r d).find?
      (fun u => u.user_id == r) =
      some ((getUserRow s r).getD ⟨r, none, none, 0, 0⟩) := by
    unfold setRefByCoalesce
    rw [find?_map_of_key (fun u : UserRow => u.user_id)
      (fun u : UserRow => if u.user_id == d then
          { u with ref_by := some (u.ref_by.getD r) } else u)
      (by intro a; dsimp only; split <;> rfl) r, hfind1]
    have hne : (((getUserRow s r).getD ⟨r, none, none, 0, 0⟩).user_id == d)
        = false := by
      simp [hid]
      exact h1
    simp [hne]
    exact fun heq => absurd (hid.symm.trans heq) h1
  have hfind3 : (creditReferrer
      (setRefByCoalesce (insertUserIfAbsent s r).users r d) r bonus).find?
      (fun u => u.user_id == r) =
      some { (getUserRow s r).getD ⟨r, none, none, 0, 0⟩ with
             balance :=
               ((getUserRow s r).getD ⟨r, none, none, 0, 0⟩).balance + bonus,
             referrals_count :=
               ((getUserRow s r).getD ⟨r, none, none, 0, 0⟩).referrals_count
                 + 1 } := by
    unfold creditReferrer
    rw [find?_map_of_key (fun u : UserRow => u.user_id)
      (fun u : UserRow => if u.user_id == r then
          { u with referrals_count := u.referrals_count + 1,
                   balance := u.balance + bonus } else u)
      (by intro a; dsimp only; split <;> rfl) r, hfind2]
    simp [hid]
  unfold getUserRow
  exact hfind3

theorem balance_refcount_after_success (bonus : ℚ) (s : Store) (r d : Int)
    (h1 : ¬r = d) (h2 : hasRefEvent s d = false) :
    balanceOf (apply_referral bonus s r d).2 r = balanceOf s r + bonus ∧
    refCountOf (apply_referral bonus s r d).2 r = refCountOf s r + 1 := by
  have h := getUserRow_after_success bonus s r d h1 h2
  constructor
  · unfold balanceOf
    rw [h]
    cases hg : getUserRow s r <;> simp [hg]
  · unfold refCountOf
    rw [h]
    cases hg : getUserRow s r <;> simp [hg]

/-! ## Claim theorems -/

/-- **C1** fails as literally stated: it quantifies over *every* starting
store state, but in a store whose ledger already holds a referral event
for the referred id the first `attemptCredit` call also reports
`AlreadyCredited` (`False`), not `Applied`. -/
theorem C1_counterexample :
    (100 : Int) ≠ 200 ∧
    (apply_referral 1 (Store.mk [] [RefEvent.mk 100 200] []) 100 200).1
      ≠ true := by
  refine ⟨by decide, ?_⟩
  rw [apply_referral_dup 1 _ 100 200 (by rfl)]
  decide

/-- **C1** (amended: restricted to starting states whose ledger holds no
event for the referred id). For distinct ids, two sequential
`attemptCredit` calls return `Applied` (`True`) then `AlreadyCredited`
(`False`), the second call changes nothing, and after both calls the
referrer's balance is exactly one bonus higher and `referrals_count`
exactly one higher than before the first call. -/
theorem C1_attemptCredit_twice (bonus : ℚ) (s : Store) (r d : Int)
    (hne : r ≠ d) (hfresh : hasRefEvent s d = false) :
    (apply_referral bonus s r d).1 = true ∧
    (apply_referral bonus (apply_referral bonus s r d).2 r d).1 = false ∧
    (apply_referral bonus (apply_referral bonus s r d).2 r d).2 =
      (apply_referral bonus s r d).2 ∧
    balanceOf (apply_referral bonus (apply_referral bonus s r d).2 r d).2 r
      = balanceOf s r + bonus ∧
    refCountOf (apply_referral bonus (apply_referral bonus s r d).2 r d).2 r
      = refCountOf s r + 1 := by
  have hdup := apply_referral_dup bonus (apply_referral bonus s r d).2 r d
    (hasRefEvent_after_success bonus s r d hne hfresh)
  have hsucc := apply_referral_success_eq bonus s r d hne hfresh
  have hbal := balance_refcount_after_success bonus s r d hne hfresh
  refine ⟨by rw [hsucc], by rw [hdup], by rw [hdup], ?_, ?_⟩
  · rw [hdup]
    exact hbal.1
  · rw [hdup]
    exact hbal.2

theorem C1_attemptCredit_twice_witness :
    (100 : Int) ≠ 200 ∧ hasRefEvent Store.empty 200 = false ∧
    (apply_referral 1 Store.empty 100 200).1 = true ∧
    balanceOf (apply_referral 1 (apply_referral 1 Store.empty 100 200).2
        100 200).2 100 = balanceOf Store.empty 100 + 1 :=
  ⟨by decide, by rfl,
   (C1_attemptCredit_twice 1 Store.empty 100 200 (by decide) (by rfl)).1,
   (C1_attemptCredit_twice 1 Store.empty 100 200
      (by decide) (by rfl)).2.2.2.1⟩

/-- **C2**: `attemptCredit(x, x)` hits the `referrer_id == referred_id`
guard, returns the not-applied outcome (`False`, the code's
`SelfReferral`) and returns before touching the database: the store is
unchanged in every component. -/
theorem C2_self_referral_frame (bonus : ℚ) (s : Store) (x : Int) :
    apply_referral bonus s x x = (false, s) :=
  apply_referral_self_eq bonus s x

/-- **C3**: when the ledger insert hits the `UNIQUE (referred_id)`
constraint, `attemptCredit` returns `AlreadyCredited` (`False`) and the
aborted transaction commits nothing: the store — including the referred
user's `ref_by` and the referrer's balance and `referrals_count` — is
exactly the store before the call. -/
theorem C3_duplicate_is_noop (bonus : ℚ) (s : Store) (r d : Int)
    (h : hasRefEvent s d = true) :
    apply_referral bonus s r d = (false, s) :=
  apply_referral_dup bonus s r d h

theorem C3_duplicate_is_noop_witness :
    hasRefEvent (Store.mk [] [RefEvent.mk 7 9] []) 9 = true ∧
    apply_referral 1 (Store.mk [] [RefEvent.mk 7 9] []) 7 9 =
      (false, Store.mk [] [RefEvent.mk 7 9] []) :=
  ⟨by rfl, C3_duplicate_is_noop 1 _ 7 9 (by rfl)⟩

/-- **C4**: `isSubscribedToAll` is true iff the configured channel list is
empty or `isMember` holds of every configured channel, and the result is
the order-independent conjunction: any permutation of the channel list
yields the same result. -/
theorem C4_subscribed_iff_all (query : MembershipQuery)
    (channels : List ChatRef) (uid : Int) :
    (is_subscribed_everywhere query channels uid = true ↔
      (channels = [] ∨ ∀ ch ∈ channels, is_member_of query ch uid = true)) ∧
    (∀ channels' : List ChatRef, channels.Perm channels' →
      is_subscribed_everywhere query channels uid =
        is_subscribed_everywhere query channels' uid) := by
  constructor
  · unfold is_subscribed_everywhere
    cases channels with
    | nil => simp
    | cons a l => simp [List.all_eq_true]
  · intro channels' hperm
    unfold is_subscribed_everywhere
    have hemp : channels.isEmpty = channels'.isEmpty := by
      cases hc : channels.isEmpty <;> cases hc' : channels'.isEmpty <;>
        try rfl
      · rw [List.isEmpty_eq_true] at hc'
        subst hc'
        simp [hperm.eq_nil] at hc
      · rw [List.isEmpty_eq_true] at hc
        subst hc
        simp [hperm.symm.eq_nil] at hc'
    have hall : channels.all (fun ch => is_member_of query ch uid) =
        channels'.all (fun ch => is_member_of query ch uid) := by
      rw [Bool.eq_iff_iff]
      simp only [List.all_eq_true]
      constructor
      · intro h ch hch
        exact h ch (hperm.mem_iff.mpr hch)
      · intro h ch hch
        exact h ch (hperm.mem_iff.mp hch)
    rw [hemp, hall]

theorem C4_subscribed_iff_all_witness :
    is_subscribed_everywhere (fun _ _ => none)
        [ChatRef.id 1, ChatRef.id 2] 5 =
      is_subscribed_everywhere (fun _ _ => none)
        [ChatRef.id 2, ChatRef.id 1] 5 :=
  (C4_subscribed_iff_all (fun _ _ => none) [ChatRef.id 1, ChatRef.id 2] 5).2
    [ChatRef.id 2, ChatRef.id 1] (List.Perm.swap _ _ _)

/-- **C5**: `isMember` is true iff the membership query returned (did not
raise) and reported one of the allow-listed statuses `member`,
`administrator`, `creator` (the Bot API status of the chat owner); any
exception (`none`) or any other status yields `false`. -/
theorem C5_member_allowlist (query : MembershipQuery) (ch : ChatRef)
    (uid : Int) :
    is_member_of query ch uid = true ↔
      ∃ st, query ch uid = some st ∧
        (st = ChatMemberStatus.member ∨ st = ChatMemberStatus.administrator
          ∨ st = ChatMemberStatus.creator) := by
  unfold is_member_of
  cases hq : query ch uid with
  | none => simp
  | some st => cases st <;> simp

/-! ## Pending-queue lemmas -/

theorem ensure_user_pending (s : Store) (uid : Int) (un : Option String) :
    (ensure_user s uid un).pending = s.pending := by
  unfold ensure_user upsertUsername
  split <;> rfl

theorem ensure_user_referrals (s : Store) (uid : Int) (un : Option String) :
    (ensure_user s uid un).referrals = s.referrals := by
  unfold ensure_user upsertUsername
  split <;> rfl

theorem add_pending_ref_users (s : Store) (d r : Int) :
    (add_pending_ref s d r).users = s.users := by
  unfold add_pending_ref
  split <;> rfl

theorem add_pending_ref_referrals (s : Store) (d r : Int) :
    (add_pending_ref s d r).referrals = s.referrals := by
  unfold add_pending_ref
  split <;> rfl

theorem pop_pending_ref_users (s : Store) (d : Int) :
    ((pop_pending_ref s d).2).users = s.users := by
  unfold pop_pending_ref
  cases h : s.pending.find? (fun p => p.1 == d) <;> rfl

theorem pop_pending_ref_referrals (s : Store) (d : Int) :
    ((pop_pending_ref s d).2).referrals = s.referrals := by
  unfold pop_pending_ref
  cases h : s.pending.find? (fun p => p.1 == d) <;> rfl

theorem apply_referral_pending (bonus : ℚ) (s : Store) (r d : Int) :
    ((apply_referral bonus s r d).2).pending = s.pending := by
  unfold apply_referral
  split
  · rfl
  · split
    · rfl
    · simp [insertUserIfAbsent_pending]

/-- `pendingLookup` reads only the `pending` component. -/
theorem pendingLookup_congr {s t : Store} (h : s.pending = t.pending)
    (x : Int) : pendingLookup s x = pendingLookup t x := by
  unfold pendingLookup
  rw [h]

/-- The upsert makes the new referrer the staged one for the referred id
(last write wins). -/
theorem pendingLookup_add (s : Store) (d r : Int) :
    pendingLookup (add_pending_ref s d r) d = some r := by
  unfold pendingLookup add_pending_ref
  cases hany : s.pending.any (fun p => p.1 == d) with
  | true =>
    have h1 : (s.pending.find? (fun p => p.1 == d)).isSome := by
      rw [List.find?_isSome]
      rcases List.any_eq_true.mp hany with ⟨x, hx, hpx⟩
      exact ⟨x, hx, hpx⟩
    rcases Option.isSome_iff_exists.mp h1 with ⟨v, hv⟩
    have hvkey : v.1 = d := by simpa using List.find?_some hv
    simp only [hany, if_true]
    rw [find?_map_of_key (fun p : Int × Int => p.1)
      (fun p : Int × Int => if p.1 == d then (p.1, r) else p)
      (by intro a; dsimp only; split <;> rfl) d, hv]
    simp [hvkey]
  | false =>
    have hnone : s.pending.find? (fun p => p.1 == d) = none := by
      rw [List.find?_eq_none]
      intro x hx
      simpa using List.any_eq_false.mp hany x hx
    simp [hany, hnone, List.find?_append]

/-- The upsert leaves every other referred id's staged claim alone. -/
theorem pendingLookup_add_other (s : Store) (d r x : Int) (hx : x ≠ d) :
    pendingLookup (add_pending_ref s d r) x = pendingLookup s x := by
  unfold pendingLookup add_pending_ref
  cases hany : s.pending.any (fun p => p.1 == d) with
  | true =>
    simp only [hany, if_true]
    rw [find?_map_of_key (fun p : Int × Int => p.1)
      (fun p : Int × Int => if p.1 == d then (p.1, r) else p)
      (by intro a; dsimp only; split <;> rfl) x]
    cases hv : s.pending.find? (fun p => p.1 == x) with
    | none => rfl
    | some v =>
      have hvx : v.1 = x := by simpa using List.find?_some hv
      have hvd : (v.1 == d) = false := by
        simp [hvx]
        exact hx
      simp [hvd]
      rw [if_neg (by rw [hvx]; exact hx)]
  | false =>
    have hlast : ([((d : Int), (r : Int))].find? (fun p => p.1 == x))
        = none := by
      simp [List.find?_singleton]
      intro h
      exact absurd h.symm hx
    simp [hany, List.find?_append, hlast]

/-- Staging keeps at most one row per referred id: if the table was
consistent (at most one row for this key) the upsert leaves exactly one. -/
theorem countP_pending_add (s : Store) (d r : Int)
    (h : s.pending.countP (fun p => p.1 == d) ≤ 1) :
    (add_pending_ref s d r).pending.countP (fun p => p.1 == d) = 1 := by
  unfold add_pending_ref
  cases hany : s.pending.any (fun p => p.1 == d) with
  | true =>
    have hpos : 0 < s.pending.countP (fun p => p.1 == d) := by
      rw [List.countP_pos_iff]
      rcases List.any_eq_true.mp hany with ⟨x, hx, hpx⟩
      exact ⟨x, hx, hpx⟩
    have hcnt : s.pending.countP (fun p => p.1 == d) = 1 := by omega
    simp only [hany, if_true]
    rw [List.countP_map]
    have hcong : ((fun p : Int × Int => p.1 == d) ∘
        (fun p : Int × Int => if p.1 == d then (p.1, r) else p)) =
        (fun p : Int × Int => p.1 == d) := by
      funext a
      simp only [Function.comp]
      split <;> rfl
    rw [hcong]
    exact hcnt
  | false =>
    have hzero : s.pending.countP (fun p => p.1 == d) = 0 := by
      rw [List.countP_eq_zero]
      intro x hx
      simpa using List.any_eq_false.mp hany x hx
    simp [hany, List.countP_append, hzero, List.countP_singleton]

theorem pop_pending_of_lookup_none (s : Store) (d : Int)
    (h : pendingLookup s d = none) : pop_pending_ref s d = (none, s) := by
  unfold pendingLookup at h
  unfold pop_pending_ref
  cases hf : s.pending.find? (fun p => p.1 == d) with
  | none => rfl
  | some v => simp [hf] at h

theorem pop_pending_of_lookup_some (s : Store) (d r : Int)
    (h : pendingLookup s d = some r) :
    pop_pending_ref s d =
      (some r,
       { s with pending := s.pending.filter (fun q => !(q.1 == d)) }) := by
  unfold pendingLookup at h
  unfold pop_pending_ref
  cases hf : s.pending.find? (fun p => p.1 == d) with
  | none => simp [hf] at h
  | some v =>
    rw [hf] at h
    simp only [Option.map_some'] at h
    simp [hf, h]

theorem pendingLookup_filter_none (s : Store) (d : Int) :
    pendingLookup
      { s with pending := s.pending.filter (fun q => !(q.1 == d)) } d
      = none := by
  unfold pendingLookup
  simp only [Option.map_eq_none']
  rw [List.find?_eq_none]
  intro x hx
  have := (List.mem_filter.mp hx).2
  simp at this
  simp [this]

/-- **C6**: with a failing gate and a valid non-self `/start` payload,
the handler reports no applied referral and stages exactly one pending
claim for the referred id, carrying the new referrer (last write wins,
overwriting any previously staged referrer); staged claims of every other
referred id are untouched. -/
theorem C6_deferred_stages_one (bonus : ℚ) (query : MembershipQuery)
    (channels : List ChatRef) (s : Store) (uid rr : Int)
    (uname : Option String)
    (hgate : is_subscribed_everywhere query channels uid = false)
    (hne : rr ≠ uid) :
    (on_start_core bonus query channels s uid uname (some rr)).1 = false ∧
    pendingLookup
      (on_start_core bonus query channels s uid uname (some rr)).2 uid
      = some rr ∧
    (∀ x, x ≠ uid →
      pendingLookup
        (on_start_core bonus query channels s uid uname (some rr)).2 x
        = pendingLookup s x) ∧
    (s.pending.countP (fun p => p.1 == uid) ≤ 1 →
      ((on_start_core bonus query channels s uid uname
          (some rr)).2).pending.countP (fun p => p.1 == uid) = 1) := by
  have hred : on_start_core bonus query channels s uid uname (some rr)
      = (false, add_pending_ref (ensure_user s uid uname) uid rr) := by
    unfold on_start_core
    simp [hgate, hne]
  rw [hred]
  refine ⟨rfl, pendingLookup_add _ uid rr, ?_, ?_⟩
  · intro x hxne
    rw [pendingLookup_add_other _ uid rr x hxne]
    exact pendingLookup_congr (ensure_user_pending s uid uname) x
  · intro hcnt
    apply countP_pending_add
    rw [ensure_user_pending]
    exact hcnt

theorem C6_deferred_stages_one_witness :
    pendingLookup
      (on_start_core 1 (fun _ _ => none) [ChatRef.id 1]
        (Store.mk [] [] [(200, 55)]) 200 none (some 100)).2 200
      = some 100 ∧
    ((on_start_core 1 (fun _ _ => none) [ChatRef.id 1]
        (Store.mk [] [] [(200, 55)]) 200 none
        (some 100)).2).pending.countP (fun p => p.1 == 200) = 1 :=
  ⟨(C6_deferred_stages_one 1 (fun _ _ => none) [ChatRef.id 1]
      (Store.mk [] [] [(200, 55)]) 200 100 none (by rfl)
      (by decide)).2.1,
   (C6_deferred_stages_one 1 (fun _ _ => none) [ChatRef.id 1]
      (Store.mk [] [] [(200, 55)]) 200 100 none (by rfl)
      (by decide)).2.2.2 (by decide)⟩

theorem cmd_check_nothing (bonus : ℚ) (query : MembershipQuery)
    (channels : List ChatRef) (t : Store) (uid : Int)
    (hgate : is_subscribed_everywhere query channels uid = true)
    (hnone : pendingLookup t uid = none) :
    cmd_check_core bonus query channels t uid
      = (CheckOutcome.nothingPending, t) := by
  unfold cmd_check_core
  rw [pop_pending_of_lookup_none t uid hnone]
  simp [hgate]

/-- **C7**: `/check` consults the gate first — on failure it reports
`StillBlocked` and the store (the staged claim included) is exactly as
before; on success with a staged claim it consumes the claim (deleting its
row) and delegates the staged referrer to `attemptCredit`, so a second
`/check` in the same gate state reports `NothingPending` and changes
nothing. -/
theorem C7_resolve_gate_and_consume (bonus : ℚ) (query : MembershipQuery)
    (channels : List ChatRef) (s : Store) (uid : Int) :
    (is_subscribed_everywhere query channels uid = false →
      cmd_check_core bonus query channels s uid
        = (CheckOutcome.stillBlocked, s)) ∧
    (is_subscribed_everywhere query channels uid = true →
      ∀ r, pendingLookup s uid = some r →
        cmd_check_core bonus query channels s uid =
          (CheckOutcome.credited
            (apply_referral bonus
              { s with pending := s.pending.filter (fun q => !(q.1 == uid)) }
              r uid).1,
           (apply_referral bonus
              { s with pending := s.pending.filter (fun q => !(q.1 == uid)) }
              r uid).2) ∧
        pendingLookup (cmd_check_core bonus query channels s uid).2 uid
          = none ∧
        cmd_check_core bonus query channels
            (cmd_check_core bonus query channels s uid).2 uid =
          (CheckOutcome.nothingPending,
           (cmd_check_core bonus query channels s uid).2)) := by
  constructor
  · intro hgate
    unfold cmd_check_core
    simp [hgate]
  · intro hgate r hr
    have hpop := pop_pending_of_lookup_some s uid r hr
    have hred : cmd_check_core bonus query channels s uid =
        (CheckOutcome.credited
          (apply_referral bonus
            { s with pending := s.pending.filter (fun q => !(q.1 == uid)) }
            r uid).1,
         (apply_referral bonus
            { s with pending := s.pending.filter (fun q => !(q.1 == uid)) }
            r uid).2) := by
      unfold cmd_check_core
      rw [hpop]
      simp [hgate]
    have hnopend :
        pendingLookup (cmd_check_core bonus query channels s uid).2 uid
          = none := by
      rw [hred]
      have hp := apply_referral_pending bonus
        { s with pending := s.pending.filter (fun q => !(q.1 == uid)) } r uid
      rw [pendingLookup_congr hp uid]
      exact pendingLookup_filter_none s uid
    exact ⟨hred, hnopend,
      cmd_check_nothing bonus query channels _ uid hgate hnopend⟩

theorem C7_resolve_gate_and_consume_witness :
    cmd_check_core 1 (fun _ _ => none) [ChatRef.id 1]
        (Store.mk [] [] [(200, 100)]) 200
      = (CheckOutcome.stillBlocked, Store.mk [] [] [(200, 100)]) ∧
    pendingLookup
      (cmd_check_core 1 (fun _ _ => some ChatMemberStatus.member)
        [ChatRef.id 1] (Store.mk [] [] [(200, 100)]) 200).2 200 = none :=
  ⟨(C7_resolve_gate_and_consume 1 (fun _ _ => none) [ChatRef.id 1]
      (Store.mk [] [] [(200, 100)]) 200).1 (by rfl),
   ((C7_resolve_gate_and_consume 1
      (fun _ _ => some ChatMemberStatus.member) [ChatRef.id 1]
      (Store.mk [] [] [(200, 100)]) 200).2 (by rfl) 100 (by rfl)).2.1⟩

/-! ## `ref_by` write-once lemmas -/

theorem refByOf_congr_users {s t : Store} (h : s.users = t.users) (x : Int) :
    refByOf s x = refByOf t x := by
  unfold refByOf getUserRow
  rw [h]

/-- The username upsert never touches `ref_by` (a fresh row gets NULL). -/
theorem refByOf_upsertUsername (s : Store) (uid : Int) (un : Option String)
    (x : Int) : refByOf (upsertUsername s uid un) x = refByOf s x := by
  unfold upsertUsername refByOf getUserRow
  cases hany : s.users.any (fun u => u.user_id == uid) with
  | true =>
    simp only [hany, if_true]
    rw [find?_map_of_key (fun u : UserRow => u.user_id)
      (fun u : UserRow =>
        if u.user_id == uid then { u with username := un } else u)
      (by intro a; dsimp only; split <;> rfl) x]
    cases hv : s.users.find? (fun u => u.user_id == x) with
    | none => rfl
    | some v =>
      simp only [Option.map_some', Option.some_bind]
      split <;> rfl
  | false =>
    simp only [hany, Bool.false_eq_true, if_false]
    rw [List.find?_append]
    cases hv : s.users.find? (fun u => u.user_id == x) with
    | some v => simp [hv]
    | none =>
      simp only [hv, Option.none_or, Option.none_bind]
      rw [List.find?_singleton]
      split <;> rfl

theorem refByOf_insertUserIfAbsent (s : Store) (uid x v : Int)
    (h : refByOf s x = some v) :
    refByOf (insertUserIfAbsent s uid) x = some v := by
  unfold insertUserIfAbsent
  cases hany : s.users.any (fun u => u.user_id == uid) with
  | true =>
    rw [if_pos rfl]
    exact h
  | false =>
    rw [if_neg (by decide)]
    unfold refByOf getUserRow at h ⊢
    rw [List.find?_append]
    cases hv : s.users.find? (fun u => u.user_id == x) with
    | none => simp [hv] at h
    | some w => simpa [hv] using h

/-- `apply_referral` never downgrades or changes an already-set `ref_by`:
on the success path the COALESCE update keeps an existing value, and the
other two paths change nothing. -/
theorem refByOf_apply_referral (bonus : ℚ) (s : Store) (r d x v : Int)
    (h : refByOf s x = some v) :
    refByOf (apply_referral bonus s r d).2 x = some v := by
  by_cases hself : r = d
  · rw [hself, apply_referral_self_eq]
    exact h
  cases hdup : hasRefEvent s d with
  | true =>
    rw [apply_referral_dup bonus s r d hdup]
    exact h
  | false =>
    rw [apply_referral_success_eq bonus s r d hself hdup]
    have h1 : refByOf (insertUserIfAbsent s r) x = some v :=
      refByOf_insertUserIfAbsent s r x v h
    unfold refByOf getUserRow at h1 ⊢
    cases hf : (insertUserIfAbsent s r).users.find?
        (fun u => u.user_id == x) with
    | none => simp [hf] at h1
    | some w =>
      rw [hf] at h1
      simp only [Option.some_bind] at h1
      unfold creditReferrer setRefByCoalesce
      rw [find?_map_of_key (fun u : UserRow => u.user_id)
        (fun u : UserRow => if u.user_id == r then
            { u with referrals_count := u.referrals_count + 1,
                     balance := u.balance + bonus } else u)
        (by intro a; dsimp only; split <;> rfl) x]
      rw [find?_map_of_key (fun u : UserRow => u.user_id)
        (fun u : UserRow => if u.user_id == d then
            { u with ref_by := some (u.ref_by.getD r) } else u)
        (by intro a; dsimp only; split <;> rfl) x, hf]
      have hg1 : (if w.user_id == d then
          { w with ref_by := some (w.ref_by.getD r) } else w).ref_by
          = some v := by
        split <;> simp [h1]
      simp only [Option.map_some', Option.some_bind]
      have hg2 : ∀ u : UserRow, (if u.user_id == r then
          { u with referrals_count := u.referrals_count + 1,
                   balance := u.balance + bonus } else u).ref_by
          = u.ref_by := by
        intro u
        split <;> rfl
      rw [hg2]
      exact hg1

theorem refByOf_on_start (bonus : ℚ) (query : MembershipQuery)
    (channels : List ChatRef) (s : Store) (uid : Int) (un : Option String)
    (payload : Option Int) (x v : Int) (h : refByOf s x = some v) :
    refByOf (on_start_core bonus query channels s uid un payload).2 x
      = some v := by
  have h1 : refByOf (ensure_user s uid un) x = some v := by
    rw [show ensure_user s uid un = upsertUsername s uid un from rfl,
      refByOf_upsertUsername]
    exact h
  rcases payload with _ | rr
  · have hred : on_start_core bonus query channels s uid un none
        = (false, ensure_user s uid un) := by
      unfold on_start_core
      simp
    rw [hred]
    exact h1
  · by_cases hne : rr = uid
    · have hred : on_start_core bonus query channels s uid un (some rr)
          = (false, ensure_user s uid un) := by
        unfold on_start_core
        simp [hne]
      rw [hred]
      exact h1
    · cases hg : is_subscribed_everywhere query channels uid with
      | true =>
        have hred : on_start_core bonus query channels s uid un (some rr)
            = apply_referral bonus (ensure_user s uid un) rr uid := by
          unfold on_start_core
          simp [hne, hg]
        rw [hred]
        exact refByOf_apply_referral bonus _ rr uid x v h1
      | false =>
        have hred : on_start_core bonus query channels s uid un (some rr)
            = (false, add_pending_ref (ensure_user s uid un) uid rr) := by
          unfold on_start_core
          simp [hne, hg]
        rw [hred]
        rw [refByOf_congr_users (add_pending_ref_users _ uid rr) x]
        exact h1

theorem refByOf_cmd_check (bonus : ℚ) (query : MembershipQuery)
    (channels : List ChatRef) (s : Store) (uid x v : Int)
    (h : refByOf s x = some v) :
    refByOf (cmd_check_core bonus query channels s uid).2 x = some v := by
  cases hg : is_subscribed_everywhere query channels uid with
  | false =>
    have hred : cmd_check_core bonus query channels s uid
        = (CheckOutcome.stillBlocked, s) := by
      unfold cmd_check_core
      simp [hg]
    rw [hred]
    exact h
  | true =>
    cases hp : pendingLookup s uid with
    | none =>
      rw [cmd_check_nothing bonus query channels s uid hg hp]
      exact h
    | some rr =>
      have hpop := pop_pending_of_lookup_some s uid rr hp
      have hred : cmd_check_core bonus query channels s uid =
          (CheckOutcome.credited
            (apply_referral bonus
              { s with pending := s.pending.filter (fun q => !(q.1 == uid)) }
              rr uid).1,
           (apply_referral bonus
              { s with pending := s.pending.filter (fun q => !(q.1 == uid)) }
              rr uid).2) := by
        unfold cmd_check_core
        rw [hpop]
        simp [hg]
      rw [hred]
      exact refByOf_apply_referral bonus _ rr uid x v h

/-- **C8**: `ref_by` is write-once. For every unit of work of the bot and
every user whose `ref_by` is already set, the value after the operation is
exactly the value before: the username upsert leaves `ref_by` alone, the
referrer insert is `DO NOTHING`, and the COALESCE update only fills a
NULL. -/
theorem C8_refby_write_once (bonus : ℚ) (query : MembershipQuery)
    (channels : List ChatRef) (op : Op) (s : Store) (u v : Int)
    (h : refByOf s u = some v) :
    refByOf (stepOp bonus query channels op s) u = some v := by
  cases op with
  | ensureUser uid un =>
    show refByOf (ensure_user s uid un) u = some v
    rw [show ensure_user s uid un = upsertUsername s uid un from rfl,
      refByOf_upsertUsername]
    exact h
  | applyReferral r d => exact refByOf_apply_referral bonus s r d u v h
  | addPending d r =>
    show refByOf (add_pending_ref s d r) u = some v
    rw [refByOf_congr_users (add_pending_ref_users s d r) u]
    exact h
  | popPending d =>
    show refByOf (pop_pending_ref s d).2 u = some v
    rw [refByOf_congr_users (pop_pending_ref_users s d) u]
    exact h
  | onStart uid un payload =>
    exact refByOf_on_start bonus query channels s uid un payload u v h
  | cmdCheck uid =>
    exact refByOf_cmd_check bonus query channels s uid u v h

theorem C8_refby_write_once_witness :
    refByOf (Store.mk [UserRow.mk 2 none (some 9) 0 0] [] []) 2 = some 9 ∧
    refByOf (stepOp 1 (fun _ _ => none) [] (Op.applyReferral 5 2)
      (Store.mk [UserRow.mk 2 none (some 9) 0 0] [] [])) 2 = some 9 :=
  ⟨by rfl,
   C8_refby_write_once 1 (fun _ _ => none) [] (Op.applyReferral 5 2)
     (Store.mk [UserRow.mk 2 none (some 9) 0 0] [] []) 2 9 (by rfl)⟩

/-! ## Race serialization lemmas -/

/-- Once the ledger holds a row for the referred id, every further
`apply_referral` transaction is a no-op reporting `False`. -/
theorem applyN_dup (bonus : ℚ) (r d : Int) (n : Nat) (s : Store)
    (h : hasRefEvent s d = true) :
    applyN bonus r d n s = (List.replicate n false, s) := by
  induction n with
  | zero => simp [applyN]
  | succ m ih =>
    simp [applyN, apply_referral_dup bonus s r d h, ih, List.replicate_succ]

/-- **C9**: any serial order of `n ≥ 1` racing `attemptCredit`
transactions for the same fresh pair (each call is one atomic PostgreSQL
transaction, so an arbitrary interleaving across units of work is exactly
some serial order) produces `Applied` for exactly the winning call and
`AlreadyCredited` for all others, leaves exactly one ledger row for the
referred id, and credits the referrer exactly one bonus (and one
`referrals_count`). -/
theorem C9_race_single_credit (bonus : ℚ) (s : Store) (r d : Int) (n : Nat)
    (hn : 1 ≤ n) (hne : r ≠ d) (hfresh : hasRefEvent s d = false) :
    (applyN bonus r d n s).1 = true :: List.replicate (n - 1) false ∧
    ((applyN bonus r d n s).2).referrals.countP
      (fun e => e.referred_id == d) = 1 ∧
    balanceOf (applyN bonus r d n s).2 r = balanceOf s r + bonus ∧
    refCountOf (applyN bonus r d n s).2 r = refCountOf s r + 1 := by
  obtain ⟨m, rfl⟩ : ∃ m, n = m + 1 := ⟨n - 1, by omega⟩
  have hsucc := apply_referral_success_eq bonus s r d hne hfresh
  have hdup := applyN_dup bonus r d m (apply_referral bonus s r d).2
    (hasRefEvent_after_success bonus s r d hne hfresh)
  have hit : applyN bonus r d (m + 1) s
      = (true :: List.replicate m false, (apply_referral bonus s r d).2) := by
    have hz : applyN bonus r d (m + 1) s
        = ((apply_referral bonus s r d).1 ::
            (applyN bonus r d m (apply_referral bonus s r d).2).1,
           (applyN bonus r d m (apply_referral bonus s r d).2).2) := rfl
    rw [hz, hdup]
    rw [show (apply_referral bonus s r d).1 = true from by rw [hsucc]]
  refine ⟨?_, ?_, ?_, ?_⟩
  · rw [hit]
    simp
  · rw [hit]
    have hz : s.referrals.countP (fun e => e.referred_id == d) = 0 := by
      rw [List.countP_eq_zero]
      intro e he
      simpa using List.any_eq_false.mp hfresh e he
    rw [hsucc]
    simp [List.countP_append, hz, List.countP_singleton]
  · rw [hit]
    exact (balance_refcount_after_success bonus s r d hne hfresh).1
  · rw [hit]
    exact (balance_refcount_after_success bonus s r d hne hfresh).2

theorem C9_race_single_credit_witness :
    1 ≤ 3 ∧ (100 : Int) ≠ 200 ∧ hasRefEvent Store.empty 200 = false ∧
    (applyN 1 100 200 3 Store.empty).1
      = true :: List.replicate (3 - 1) false ∧
    ((applyN 1 100 200 3 Store.empty).2).referrals.countP
      (fun e => e.referred_id == 200) = 1 :=
  ⟨by decide, by decide, by rfl,
   (C9_race_single_credit 1 Store.empty 100 200 3 (by decide) (by decide)
     (by rfl)).1,
   (C9_race_single_credit 1 Store.empty 100 200 3 (by decide) (by decide)
     (by rfl)).2.1⟩

/-! ## Ledger/counter invariant lemmas -/

theorem keys_map_of_key (l : List UserRow) (g : UserRow → UserRow)
    (hg : ∀ u, (g u).user_id = u.user_id) :
    (l.map g).map (·.user_id) = l.map (·.user_id) := by
  rw [List.map_map]
  apply List.map_congr_left
  intro a _
  exact hg a

theorem countP_key_map (l : List UserRow) (g : UserRow → UserRow)
    (hg : ∀ u, (g u).user_id = u.user_id) (r : Int) :
    (l.map g).countP (fun u => u.user_id == r)
      = l.countP (fun u => u.user_id == r) := by
  rw [List.countP_map]
  congr 1
  funext a
  simp [Function.comp, hg]

/-- The credit `UPDATE` raises the counter sum by the number of rows whose
key matches the referrer. -/
theorem sum_counts_creditReferrer (l : List UserRow) (r : Int) (bonus : ℚ) :
    ((creditReferrer l r bonus).map (·.referrals_count)).sum
      = (l.map (·.referrals_count)).sum
        + l.countP (fun u => u.user_id == r) := by
  induction l with
  | nil => simp [creditReferrer]
  | cons a t ih =>
    unfold creditReferrer at ih ⊢
    simp only [List.map_cons, List.sum_cons, List.countP_cons, ih]
    by_cases h : (a.user_id == r) = true
    · simp only [h, if_true]
      omega
    · have h' : (a.user_id == r) = false := by
        simpa using h
      simp only [h', Bool.false_eq_true, if_false]
      omega

/-- The COALESCE `UPDATE` does not change any counter. -/
theorem sum_counts_setRefBy (l : List UserRow) (r d : Int) :
    ((setRefByCoalesce l r d).map (·.referrals_count)).sum
      = (l.map (·.referrals_count)).sum := by
  unfold setRefByCoalesce
  rw [List.map_map]
  congr 1
  apply List.map_congr_left
  intro a _
  dsimp only [Function.comp]
  split <;> rfl

theorem sum_counts_insertUserIfAbsent (s : Store) (uid : Int) :
    ((insertUserIfAbsent s uid).users.map (·.referrals_count)).sum
      = (s.users.map (·.referrals_count)).sum := by
  unfold insertUserIfAbsent
  cases hany : s.users.any (fun u => u.user_id == uid) with
  | true => rw [if_pos rfl]
  | false =>
    rw [if_neg (by decide)]
    simp

theorem any_insertUserIfAbsent (s : Store) (uid : Int) :
    (insertUserIfAbsent s uid).users.any (fun u => u.user_id == uid)
      = true := by
  unfold insertUserIfAbsent
  cases hany : s.users.any (fun u => u.user_id == uid) with
  | true =>
    rw [if_pos rfl]
    exact hany
  | false =>
    rw [if_neg (by decide)]
    simp

/-- With unique keys, a present key matches exactly one row. -/
theorem countP_key_one (l : List UserRow) (r : Int)
    (hnodup : (l.map (·.user_id)).Nodup)
    (hpresent : l.any (fun u => u.user_id == r) = true) :
    l.countP (fun u => u.user_id == r) = 1 := by
  have h1 : l.countP (fun u => u.user_id == r)
      = (l.map (·.user_id)).countP (fun z => z == r) := by
    rw [List.countP_map]
    rfl
  have hle : (l.map (·.user_id)).count r ≤ 1 :=
    List.nodup_iff_count_le_one.mp hnodup r
  have hmem : r ∈ l.map (·.user_id) := by
    rcases List.any_eq_true.mp hpresent with ⟨u, hu, hpu⟩
    exact List.mem_map.mpr ⟨u, hu, by simpa using hpu⟩
  have hpos : 0 < (l.map (·.user_id)).count r :=
    List.count_pos_iff.mpr hmem
  have h2 : (l.map (·.user_id)).count r
      = (l.map (·.user_id)).countP (fun z => z == r) := rfl
  omega

theorem nodup_insertUserIfAbsent (s : Store) (uid : Int)
    (h : (s.users.map (·.user_id)).Nodup) :
    ((insertUserIfAbsent s uid).users.map (·.user_id)).Nodup := by
  unfold insertUserIfAbsent
  cases hany : s.users.any (fun u => u.user_id == uid) with
  | true =>
    rw [if_pos rfl]
    exact h
  | false =>
    rw [if_neg (by decide)]
    dsimp only
    rw [List.map_append]
    refine List.Nodup.append h (List.nodup_singleton _) ?_
    intro a ha hb
    rcases List.mem_map.mp ha with ⟨u, hu, hkey⟩
    have := List.any_eq_false.mp hany u hu
    rcases List.mem_singleton.mp hb with rfl
    simp [hkey] at this

theorem nodup_upsertUsername (s : Store) (uid : Int) (un : Option String)
    (h : (s.users.map (·.user_id)).Nodup) :
    ((upsertUsername s uid un).users.map (·.user_id)).Nodup := by
  unfold upsertUsername
  cases hany : s.users.any (fun u => u.user_id == uid) with
  | true =>
    rw [if_pos rfl]
    dsimp only
    rw [keys_map_of_key _ _ (by intro a; split <;> rfl)]
    exact h
  | false =>
    rw [if_neg (by decide)]
    dsimp only
    rw [List.map_append]
    refine List.Nodup.append h (List.nodup_singleton _) ?_
    intro a ha hb
    rcases List.mem_map.mp ha with ⟨u, hu, hkey⟩
    have := List.any_eq_false.mp hany u hu
    rcases List.mem_singleton.mp hb with rfl
    simp [hkey] at this

/-- The two invariants C10 needs, preserved together: unique user keys and
ledger length equal to the counter sum. -/
theorem inv_apply_referral (bonus : ℚ) (s : Store) (r d : Int)
    (h : StoreInv s) : StoreInv (apply_referral bonus s r d).2 := by
  unfold StoreInv at h ⊢
  by_cases hself : r = d
  · rw [hself, apply_referral_self_eq]
    exact h
  cases hdup : hasRefEvent s d with
  | true =>
    rw [apply_referral_dup bonus s r d hdup]
    exact h
  | false =>
    rw [apply_referral_success_eq bonus s r d hself hdup]
    have hnodup1 := nodup_insertUserIfAbsent s r h.1
    have hkeys2 : (setRefByCoalesce (insertUserIfAbsent s r).users r d).map
        (·.user_id) = ((insertUserIfAbsent s r).users).map (·.user_id) :=
      keys_map_of_key _ _ (by intro a; split <;> rfl)
    have hkeys3 : (creditReferrer
        (setRefByCoalesce (insertUserIfAbsent s r).users r d) r bonus).map
        (·.user_id) = (setRefByCoalesce (insertUserIfAbsent s r).users r d).map
        (·.user_id) :=
      keys_map_of_key _ _ (by intro a; split <;> rfl)
    constructor
    · dsimp only
      rw [hkeys3, hkeys2]
      exact hnodup1
    · dsimp only [totalRefEvents, totalRefsBySum]
      rw [List.length_append, sum_counts_creditReferrer]
      have hcnt1 : (setRefByCoalesce (insertUserIfAbsent s r).users r d).countP
          (fun u => u.user_id == r)
          = ((insertUserIfAbsent s r).users).countP
              (fun u => u.user_id == r) := by
        unfold setRefByCoalesce
        exact countP_key_map _ _ (by intro a; split <;> rfl) r
      have hone : ((insertUserIfAbsent s r).users).countP
          (fun u => u.user_id == r) = 1 :=
        countP_key_one _ r (nodup_insertUserIfAbsent s r h.1)
          (any_insertUserIfAbsent s r)
      rw [sum_counts_setRefBy, sum_counts_insertUserIfAbsent, hcnt1, hone]
      have := h.2
      dsimp only [totalRefEvents, totalRefsBySum] at this
      simp [this]

theorem sum_counts_upsertUsername (s : Store) (uid : Int)
    (un : Option String) :
    ((upsertUsername s uid un).users.map (·.referrals_count)).sum
      = (s.users.map (·.referrals_count)).sum := by
  unfold upsertUsername
  cases hany : s.users.any (fun u => u.user_id == uid) with
  | true =>
    rw [if_pos rfl]
    dsimp only
    rw [List.map_map]
    congr 1
    apply List.map_congr_left
    intro a _
    dsimp only [Function.comp]
    split <;> rfl
  | false =>
    rw [if_neg (by decide)]
    simp

theorem inv_ensure_user (s : Store) (uid : Int) (un : Option String)
    (h : StoreInv s) : StoreInv (ensure_user s uid un) := by
  unfold StoreInv at h ⊢
  refine ⟨nodup_upsertUsername s uid un h.1, ?_⟩
  dsimp only [totalRefEvents, totalRefsBySum]
  rw [ensure_user_referrals]
  rw [show (ensure_user s uid un).users = (upsertUsername s uid un).users
    from rfl]
  rw [sum_counts_upsertUsername]
  exact h.2

/-- Operations that touch neither `users` nor `referrals` preserve the
invariant. -/
theorem inv_frame {s t : Store} (hu : t.users = s.users)
    (hr : t.referrals = s.referrals) (h : StoreInv s) : StoreInv t := by
  unfold StoreInv at h ⊢
  constructor
  · rw [hu]
    exact h.1
  · dsimp only [totalRefEvents, totalRefsBySum]
    rw [hu, hr]
    exact h.2

theorem inv_on_start (bonus : ℚ) (query : MembershipQuery)
    (channels : List ChatRef) (s : Store) (uid : Int) (un : Option String)
    (payload : Option Int) (h : StoreInv s) :
    StoreInv (on_start_core bonus query channels s uid un payload).2 := by
  have h1 : StoreInv (ensure_user s uid un) := inv_ensure_user s uid un h
  rcases payload with _ | rr
  · have hred : on_start_core bonus query channels s uid un none
        = (false, ensure_user s uid un) := by
      unfold on_start_core
      simp
    rw [hred]
    exact h1
  · by_cases hne : rr = uid
    · have hred : on_start_core bonus query channels s uid un (some rr)
          = (false, ensure_user s uid un) := by
        unfold on_start_core
        simp [hne]
      rw [hred]
      exact h1
    · cases hg : is_subscribed_everywhere query channels uid with
      | true =>
        have hred : on_start_core bonus query channels s uid un (some rr)
            = apply_referral bonus (ensure_user s uid un) rr uid := by
          unfold on_start_core
          simp [hne, hg]
        rw [hred]
        exact inv_apply_referral bonus _ rr uid h1
      | false =>
        have hred : on_start_core bonus query channels s uid un (some rr)
            = (false, add_pending_ref (ensure_user s uid un) uid rr) := by
          unfold on_start_core
          simp [hne, hg]
        rw [hred]
        exact inv_frame (add_pending_ref_users _ uid rr)
          (add_pending_ref_referrals _ uid rr) h1

theorem inv_cmd_check (bonus : ℚ) (query : MembershipQuery)
    (channels : List ChatRef) (s : Store) (uid : Int) (h : StoreInv s) :
    StoreInv (cmd_check_core bonus query channels s uid).2 := by
  cases hg : is_subscribed_everywhere query channels uid with
  | false =>
    have hred : cmd_check_core bonus query channels s uid
        = (CheckOutcome.stillBlocked, s) := by
      unfold cmd_check_core
      simp [hg]
    rw [hred]
    exact h
  | true =>
    cases hp : pendingLookup s uid with
    | none =>
      rw [cmd_check_nothing bonus query channels s uid hg hp]
      exact h
    | some rr =>
      have hpop := pop_pending_of_lookup_some s uid rr hp
      have hred : cmd_check_core bonus query channels s uid =
          (CheckOutcome.credited
            (apply_referral bonus
              { s with pending := s.pending.filter (fun q => !(q.1 == uid)) }
              rr uid).1,
           (apply_referral bonus
              { s with pending := s.pending.filter (fun q => !(q.1 == uid)) }
              rr uid).2) := by
        unfold cmd_check_core
        rw [hpop]
        simp [hg]
      rw [hred]
      exact inv_apply_referral bonus _ rr uid (inv_frame rfl rfl h)

theorem inv_stepOp (bonus : ℚ) (query : MembershipQuery)
    (channels : List ChatRef) (op : Op) (s : Store) (h : StoreInv s) :
    StoreInv (stepOp bonus query channels op s) := by
  cases op with
  | ensureUser uid un => exact inv_ensure_user s uid un h
  | applyReferral r d => exact inv_apply_referral bonus s r d h
  | addPending d r =>
    exact inv_frame (add_pending_ref_users s d r)
      (add_pending_ref_referrals s d r) h
  | popPending d =>
    exact inv_frame (pop_pending_ref_users s d)
      (pop_pending_ref_referrals s d) h
  | onStart uid un payload =>
    exact inv_on_start bonus query channels s uid un payload h
  | cmdCheck uid => exact inv_cmd_check bonus query channels s uid h

theorem reachable_inv (bonus : ℚ) (query : MembershipQuery)
    (channels : List ChatRef) (s : Store)
    (h : Reachable bonus query channels s) : StoreInv s := by
  induction h with
  | empty => exact ⟨List.nodup_nil, rfl⟩
  | step op _ ih => exact inv_stepOp bonus query channels op _ ih

/-- **C10**: in every store reachable from the fresh database by bot
operations, the ledger row count (`SELECT COUNT(*) FROM referrals`) equals
the sum of `referrals_count` over all user rows
(`SELECT COALESCE(SUM(referrals_count),0) FROM users`): the event insert
and the counter increment happen in the same transaction. -/
theorem C10_ledger_equals_counter_sum (bonus : ℚ)
    (query : MembershipQuery) (channels : List ChatRef) (s : Store)
    (h : Reachable bonus query channels s) :
    totalRefEvents s = totalRefsBySum s :=
  (reachable_inv bonus query channels s h).2

theorem C10_ledger_equals_counter_sum_witness :
    totalRefEvents
        (stepOp 1 (fun _ _ => none) [] (Op.applyReferral 100 200)
          Store.empty)
      = totalRefsBySum
        (stepOp 1 (fun _ _ => none) [] (Op.applyReferral 100 200)
          Store.empty) :=
  C10_ledger_equals_counter_sum 1 (fun _ _ => none) [] _
    (Reachable.step (Op.applyReferral 100 200) Reachable.empty)

end UbmBot
